import Mathlib

set_option maxRecDepth 100000
set_option maxHeartbeats 2000000

/-!
Verification of the PiNinfinity Chudnovsky engines (`pininfinity.py`).

The program computes π with Python's `decimal` module.  Every `decimal`
operation returns the exact mathematical result rounded to the context
precision `p` (that many significant decimal digits, rounding half to even);
`//` (divide-integer) truncates towards zero and is exact (it raises
`DivisionImpossible` when the integral quotient needs more than `p` digits,
which we model separately in the `Except`-valued layer).

We embed decimal *values* as `Dec`: a coefficient/exponent pair denoting
`c * 10 ^ e`, kept in a canonical form (coefficient not divisible by ten,
zero is `⟨0, 0⟩`) so that structural equality coincides with value equality.
All operations below implement the value semantics of the corresponding
`decimal` operations at a given precision.
-/

namespace PiNinfinity

/-- Number of decimal digits of `n` (1 for 0), via fuel-based recursion so
that the kernel can evaluate it. -/
def digLenAux : ℕ → ℕ → ℕ
  | 0, _ => 1
  | f+1, n => if n < 10 then 1 else digLenAux f (n / 10) + 1

/-- Number of decimal digits of `n` (`digLen 0 = 1`). -/
def digLen (n : ℕ) : ℕ := digLenAux n n

/-- Integer square root by Newton iteration with explicit fuel. -/
def isqrtAux : ℕ → ℕ → ℕ → ℕ
  | 0, _, x => x
  | f+1, n, x =>
    if x ≤ (x + n / x) / 2 then x else isqrtAux f n ((x + n / x) / 2)

/-- Integer square root: `isqrt n = ⌊√n⌋` (proved below). -/
def isqrt (n : ℕ) : ℕ := if n ≤ 1 then n else isqrtAux n n n

/-- A decimal value `c * 10 ^ e`.  This is the value content of a Python
`Decimal` object (which stores a sign, coefficient and exponent). -/
structure Dec where
  c : ℤ
  e : ℤ
  deriving DecidableEq

/-- The rational value denoted by a `Dec`. -/
def val (d : Dec) : ℚ := (d.c : ℚ) * (10 : ℚ) ^ d.e

/-- Canonical form: zero is `⟨0, 0⟩`, otherwise the coefficient carries no
trailing zero digit. -/
def Canon (d : Dec) : Prop := (d.c = 0 ∧ d.e = 0) ∨ ¬ (10 : ℤ) ∣ d.c

/-- Strip trailing zeros from the coefficient, moving them to the exponent. -/
def stripAux : ℕ → ℤ → ℤ → Dec
  | 0, c, e => ⟨c, e⟩
  | f+1, c, e => if c ≠ 0 ∧ c % 10 = 0 then stripAux f (c / 10) (e + 1) else ⟨c, e⟩

/-- Canonical `Dec` with value `c * 10 ^ e`. -/
def norm (c e : ℤ) : Dec := if c = 0 then ⟨0, 0⟩ else stripAux (digLen c.natAbs) c e

/-- The canonical `Dec` denoting an integer (`Decimal(z)` constructs it
exactly, independent of the context precision). -/
def intD (z : ℤ) : Dec := norm z 0

/-- Round the value `c * 10 ^ e` to `p` significant digits, half to even.
This is the rounding Python's `decimal` applies to every arithmetic result
at context precision `p`; when the coefficient already fits in `p` digits
the value is unchanged. -/
def roundDec (p : ℕ) (c e : ℤ) : Dec :=
  if digLen c.natAbs ≤ p then norm c e
  else
    let k := digLen c.natAbs - p
    let b := (10 : ℕ) ^ k
    let a := c.natAbs
    let q0 := a / b
    let r := a % b
    let q := if 2 * r < b then q0
             else if b < 2 * r then q0 + 1
             else if q0 % 2 = 0 then q0 else q0 + 1
    norm (if c < 0 then -(q : ℤ) else (q : ℤ)) (e + (k : ℤ))

/-- Decimal addition at precision `p`: exact sum, rounded. -/
def addD (p : ℕ) (x y : Dec) : Dec :=
  if x.e ≤ y.e then
    roundDec p (x.c + y.c * ((10 ^ (y.e - x.e).toNat : ℕ) : ℤ)) x.e
  else
    roundDec p (x.c * ((10 ^ (x.e - y.e).toNat : ℕ) : ℤ) + y.c) y.e

/-- Decimal subtraction at precision `p`. -/
def subD (p : ℕ) (x y : Dec) : Dec := addD p x ⟨-y.c, y.e⟩

/-- Decimal multiplication at precision `p`: exact product, rounded. -/
def mulD (p : ℕ) (x y : Dec) : Dec := roundDec p (x.c * y.c) (x.e + y.e)

/-- Decimal third power at precision `p` (Python `d ** 3`): exact cube,
rounded once. -/
def cubeD (p : ℕ) (x : Dec) : Dec := roundDec p (x.c * x.c * x.c) (3 * x.e)

/-- The raw truncated integer quotient of two decimals (Python's
divide-integer `//`, truncation towards zero; exact). -/
def idivT (x y : Dec) : ℤ :=
  let A := x.c.natAbs
  let B := y.c.natAbs
  let sh := x.e - y.e
  let T : ℕ := if 0 ≤ sh then A * 10 ^ sh.toNat / B else A / (B * 10 ^ (-sh).toNat)
  if (x.c < 0) = (y.c < 0) then (T : ℤ) else -(T : ℤ)

/-- Decimal divide-integer `x // y` (value; Python additionally raises
`DivisionImpossible` when the quotient needs more than `p` digits — that
failure is modelled in `idivE` below). -/
def idivD (x y : Dec) : Dec := if y.c = 0 then ⟨0, 0⟩ else norm (idivT x y) 0

/-- Decimal division at precision `p`: correctly rounded (half to even)
quotient with `p` significant digits. -/
def divD (p : ℕ) (x y : Dec) : Dec :=
  if y.c = 0 then ⟨0, 0⟩ else if x.c = 0 then ⟨0, 0⟩ else
    let A := x.c.natAbs
    let B := y.c.natAbs
    let Bd := digLen B
    let f : ℤ := (digLen (A * 10 ^ Bd / B) : ℤ) - 1 - (Bd : ℤ)
    let s : ℤ := (p : ℤ) - 1 - f
    let N : ℕ := if 0 ≤ s then A * 10 ^ s.toNat else A
    let D : ℕ := if 0 ≤ s then B else B * 10 ^ (-s).toNat
    let q0 := N / D
    let r := N % D
    let q := if 2 * r < D then q0
             else if D < 2 * r then q0 + 1
             else if q0 % 2 = 0 then q0 else q0 + 1
    norm (if (x.c < 0) = (y.c < 0) then (q : ℤ) else -(q : ℤ)) (x.e - y.e - s)

/-- `Decimal(n).sqrt()` at context precision `p`: the square root of a
natural number, correctly rounded (half to even) to `p` significant
digits. -/
def sqrtD (p : ℕ) (n : ℕ) : Dec :=
  if n = 0 then ⟨0, 0⟩ else
    if (digLen n - 1) / 2 + 1 ≤ p then
      let s := p - 1 - (digLen n - 1) / 2
      let m := n * 10 ^ (2 * s)
      let q0 := isqrt m
      let q := if (2 * q0 + 1) * (2 * q0 + 1) ≤ 4 * m then q0 + 1 else q0
      norm (q : ℤ) (-(s : ℤ))
    else
      let s := (digLen n - 1) / 2 + 1 - p
      let q0 := isqrt (n / 10 ^ (2 * s))
      let q := if (2 * q0 + 1) * (2 * q0 + 1) * 10 ^ (2 * s) ≤ 4 * n then
                 if (2 * q0 + 1) * (2 * q0 + 1) * 10 ^ (2 * s) = 4 * n ∧ q0 % 2 = 0
                 then q0 else q0 + 1
               else q0
      norm (q : ℤ) (s : ℤ)

/-! ## The sequential engine (`chudnovsky_algorithm`)

The Python function keeps locals `C, M, L, X, K, S, pi` and the current
context precision; we package them as a state.  `seqStep i` performs the
loop body for `current_iteration = i` (lines 35–42), `stepRaise` adds the
precision raise of lines 45–48, and `seqIter p n` is the state after `n`
completed iterations starting from `BASE_PRECISION = p`. -/

/-- Locals of `chudnovsky_algorithm` plus the context precision. -/
structure SeqState where
  C : Dec
  M : Dec
  L : Dec
  X : Dec
  K : Dec
  S : Dec
  pi : Dec
  prec : ℕ
  deriving DecidableEq

/-- Lines 19–28: context precision `p`, `C = 426880 * Decimal(10005).sqrt()`,
`M = 1`, `L = 13591409`, `X = 1`, `K = 6`, `S = L`, `pi = C / S`. -/
def seqInit (p : ℕ) : SeqState :=
  let C := mulD p (intD 426880) (sqrtD p 10005)
  let S := intD 13591409
  { C := C, M := intD 1, L := intD 13591409, X := intD 1, K := intD 6,
    S := S, pi := divD p C S, prec := p }

/-- Lines 35–42, one loop body at `current_iteration = i`; every `decimal`
operation rounds at the current precision, `i ** 3` is an exact Python
integer. -/
def seqStep (i : ℕ) (s : SeqState) : SeqState :=
  let p := s.prec
  let t1 := cubeD p s.K
  let t2 := mulD p (intD 16) s.K
  let t3 := subD p t1 t2
  let t4 := mulD p s.M t3
  let M := idivD t4 (intD ((i : ℤ) * (i : ℤ) * (i : ℤ)))
  let L := addD p s.L (intD 545140134)
  let X := mulD p s.X (intD (-262537412640768000))
  let S := addD p s.S (divD p (mulD p M L) X)
  let K := addD p s.K (intD 12)
  { s with M := M, L := L, X := X, S := S, K := K, pi := divD p s.C S }

/-- One loop iteration including lines 45–48: after the body, when
`i % 10 == 0` the context precision is raised by 100 (and the reporter is
invoked; the emitted snapshots are collected by `seqSnaps`). -/
def stepRaise (i : ℕ) (s : SeqState) : SeqState :=
  let s' := seqStep i s
  if i % 10 = 0 then { s' with prec := s'.prec + 100 } else s'

/-- State after `n` completed iterations of the sequential engine started
at base precision `p`. -/
def seqIter (p : ℕ) : ℕ → SeqState
  | 0 => seqInit p
  | n+1 => stepRaise (n+1) (seqIter p n)

/-- The list of `update_callback(pi, current_iteration, precision)`
invocations (line 51) during the first `n` iterations, in order.  The `pi`
argument was computed at line 42 under the pre-raise precision; the
`precision` argument is the just-raised `new_precision`. -/
def seqSnaps (p : ℕ) : ℕ → List (Dec × ℕ × ℕ)
  | 0 => []
  | n+1 =>
    seqSnaps p n ++
      (if (n+1) % 10 = 0 then
        [((seqIter p (n+1)).pi, n+1, (seqIter p (n+1)).prec)] else [])

/-- Line 53: the triple `(pi, precision, current_iteration)` returned when
the loop exits after `n` completed iterations. -/
def chudnovsky_algorithm (p n : ℕ) : Dec × ℕ × ℕ :=
  ((seqIter p n).pi, (seqIter p n).prec, n)

/-- The context precision in force after `n` completed iterations
(raised by 100 at each multiple of 10). -/
def precAt (p n : ℕ) : ℕ := p + 100 * (n / 10)

/-! ## The exact Chudnovsky recurrence

The spec's update rules read over exact integers (no context rounding):
`M ← M·(K³ − 16K) div i³`, `L ← L + 545140134`,
`X ← X·(−262537412640768000)`, `K ← K + 12`.  All operands are
nonnegative where divided, so integer division is unambiguous. -/

def eK : ℕ → ℤ
  | 0 => 6
  | n+1 => eK n + 12

def eL : ℕ → ℤ
  | 0 => 13591409
  | n+1 => eL n + 545140134

def eX : ℕ → ℤ
  | 0 => 1
  | n+1 => eX n * (-262537412640768000)

def eM : ℕ → ℤ
  | 0 => 1
  | n+1 => eM n * (eK n * eK n * eK n - 16 * eK n) / (((n : ℤ)+1) * ((n : ℤ)+1) * ((n : ℤ)+1))

/-- The intermediate integer results of iteration `i + 1` all fit within the
context precision in force during that iteration (`precAt p i`): under this
condition none of the decimal operations on `M, L, X, K` rounds. -/
def fitsAt (p i : ℕ) : Prop :=
  digLen (eK i * eK i * eK i).natAbs ≤ precAt p i ∧
  digLen (16 * eK i).natAbs ≤ precAt p i ∧
  digLen (eK i * eK i * eK i - 16 * eK i).natAbs ≤ precAt p i ∧
  digLen (eM i * (eK i * eK i * eK i - 16 * eK i)).natAbs ≤ precAt p i ∧
  digLen (eL (i+1)).natAbs ≤ precAt p i ∧
  digLen (eX (i+1)).natAbs ≤ precAt p i ∧
  digLen (eK (i+1)).natAbs ≤ precAt p i

instance (p i : ℕ) : Decidable (fitsAt p i) := by
  unfold fitsAt; infer_instance

/-! ## The chunked parallel engine (`chudnovsky_chunk`, `chudnovsky_multithread`) -/

/-- Locals of `chudnovsky_chunk` (lines 60–64). -/
structure ChunkState where
  sum : Dec
  M : Dec
  L : Dec
  X : Dec
  K : Dec
  deriving DecidableEq

/-- Lines 60–64: `sum_total = 0`, `M = 1`,
`L = Decimal(13591409 + 545140134 * start_k)` (exact Python integer),
`X = 1`, `K = Decimal(6 + 12 * start_k)`. -/
def chunkInit (start_k : ℕ) : ChunkState :=
  { sum := intD 0, M := intD 1, L := intD (13591409 + 545140134 * (start_k : ℤ)),
    X := intD 1, K := intD (6 + 12 * (start_k : ℤ)) }

/-- Lines 67–71, loop body for `k` (0-based): divisor `(start_k + k + 1)**3`
is an exact Python integer. -/
def chunkStep (p start_k k : ℕ) (c : ChunkState) : ChunkState :=
  let t4 := mulD p c.M (subD p (cubeD p c.K) (mulD p (intD 16) c.K))
  let i : ℤ := ((start_k + k + 1 : ℕ) : ℤ)
  let M := idivD t4 (intD (i * i * i))
  let L := addD p c.L (intD 545140134)
  let X := mulD p c.X (intD (-262537412640768000))
  let sum := addD p c.sum (divD p (mulD p M L) X)
  let K := addD p c.K (intD 12)
  { sum := sum, M := M, L := L, X := X, K := K }

/-- Chunk state after the first `k` of the `chunk_size` loop passes. -/
def chunkIterState (p start_k : ℕ) : ℕ → ChunkState
  | 0 => chunkInit start_k
  | k+1 => chunkStep p start_k k (chunkIterState p start_k k)

/-- `chudnovsky_chunk((start_k, chunk_size, precision))`: the returned
partial sum. -/
def chudnovsky_chunk (start_k size p : ℕ) : Dec :=
  (chunkIterState p start_k size).sum

/-- Line 85: the argument list
`[(i, chunk_size, precision) for i in range(current_iteration, current_iteration + threads)]`
with `chunk_size = 10`. -/
def batchArgs (cur threads p : ℕ) : List (ℕ × ℕ × ℕ) :=
  (List.range threads).map (fun j => (cur + j, 10, p))

/-- Line 88: `S = sum(results)` — Python folds `0 + r₀ + r₁ + ⋯` left to
right, each addition rounded at the context precision. -/
def batchS (cur threads p : ℕ) : Dec :=
  ((batchArgs cur threads p).map
    (fun a => chudnovsky_chunk a.1 a.2.1 a.2.2)).foldl (fun acc r => addD p acc r) (intD 0)

/-- Line 91: `current_iteration += threads * chunk_size` with
`chunk_size = 10`. -/
def batchAdvance (cur threads : ℕ) : ℕ := cur + threads * 10

/-- The series-term indices a chunk starting at `start_k` actually computes:
its `k`-th pass divides by `(start_k + k + 1) ** 3`, i.e. it produces the
terms of index `start_k + 1, …, start_k + size`. -/
def chunkTermIdxs (start_k size : ℕ) : Finset ℕ :=
  Finset.image (fun k => start_k + k + 1) (Finset.range size)

/-- The chunk start offsets of one batch (line 85). -/
def batchStarts (cur threads : ℕ) : List ℕ :=
  (List.range threads).map (fun j => cur + j)

/-- All series-term indices computed by one batch. -/
def batchTermIdxs (cur threads : ℕ) : Finset ℕ :=
  Finset.biUnion (Finset.range threads) (fun j => chunkTermIdxs (cur + j) 10)

/-! ## Cancellation (`stop_event`)

The loop checks `stop_event.is_set()` once per iteration, at the top.  We
model the token as the boolean value observed by the `i`-th check (`i` =
iterations completed so far); `once set, never reset` corresponds to
monotone tokens such as `setAt a`. -/

/-- A token set (once) at time `a`: every check from `a` on observes it. -/
def setAt (a : ℕ) : ℕ → Bool := fun i => decide (a ≤ i)

/-- Setting a token twice: the loop observes the disjunction. -/
def orTok (t1 t2 : ℕ → Bool) : ℕ → Bool := fun i => t1 i || t2 i

/-- The `while not stop_event.is_set()` loop with explicit fuel: at check
index `i` with state `s`, either exit or run one full iteration. -/
def loopTokAux (tok : ℕ → Bool) : ℕ → ℕ → SeqState → ℕ × SeqState
  | 0, i, s => (i, s)
  | f+1, i, s => if tok i then (i, s) else loopTokAux tok f (i+1) (stepRaise (i+1) s)

/-- A full run of the sequential engine under cancellation token `tok`:
returns the number of completed iterations and the final state. -/
def chudnovsky_run (tok : ℕ → Bool) (p fuel : ℕ) : ℕ × SeqState :=
  loopTokAux tok fuel 0 (seqInit p)

/-! ## The fallible layer

Python `decimal` raises on division by zero, and divide-integer raises
`DivisionImpossible` when the integral quotient needs more than `prec`
digits.  `chudnovsky_algorithm` contains no handler, so any such exception
propagates out of the engine; `calculation_thread` (lines 181–199) wraps
the engine call in `try/except Exception`, prints the error and returns
normally, so the caller's `current_results` is never populated. -/

/-- Decimal division, surfacing the zero-divisor exception. -/
def divE (p : ℕ) (x y : Dec) : Except String Dec :=
  if y.c = 0 then .error "DivisionByZero" else .ok (divD p x y)

/-- Decimal divide-integer, surfacing `DivisionImpossible`. -/
def idivE (p : ℕ) (x y : Dec) : Except String Dec :=
  if y.c = 0 then .error "DivisionByZero"
  else if digLen (idivT x y).natAbs ≤ p then .ok (idivD x y)
  else .error "DivisionImpossible"

/-- The loop body with fallible arithmetic (no handler in the engine). -/
def seqStepE (i : ℕ) (s : SeqState) : Except String SeqState :=
  let p := s.prec
  let t4 := mulD p s.M (subD p (cubeD p s.K) (mulD p (intD 16) s.K))
  do
    let M ← idivE p t4 (intD ((i : ℤ) * (i : ℤ) * (i : ℤ)))
    let L := addD p s.L (intD 545140134)
    let X := mulD p s.X (intD (-262537412640768000))
    let q ← divE p (mulD p M L) X
    let S := addD p s.S q
    let K := addD p s.K (intD 12)
    let piv ← divE p s.C S
    return { s with M := M, L := L, X := X, S := S, K := K, pi := piv }

/-- One fallible iteration including the precision raise. -/
def stepRaiseE (i : ℕ) (s : SeqState) : Except String SeqState :=
  (seqStepE i s).map (fun s' => if i % 10 = 0 then { s' with prec := s'.prec + 100 } else s')

/-- Run `n` more fallible iterations from an intermediate outcome `r` after
`i` completed iterations: the engine has no `try/except`, so an error
outcome is final. -/
def runFromE : Except String SeqState → ℕ → ℕ → Except String SeqState
  | r, _, 0 => r
  | r, i, n+1 => runFromE (r.bind (stepRaiseE (i+1))) (i+1) n

/-- The fallible sequential engine: `n` iterations from the start. -/
def chudnovsky_algorithmE (p n : ℕ) : Except String SeqState :=
  runFromE (.ok (seqInit p)) 0 n

/-- Lines 181–199 (`calculation_thread`): on a normal return the results
dictionary receives the triple; on any exception the handler prints and
returns, leaving no result for the caller. -/
def calculation_thread (r : Except String (Dec × ℕ × ℕ)) : Option (Dec × ℕ × ℕ) :=
  match r with
  | .ok v => some v
  | .error _ => none

/-! ## Lemmas: digit count -/

lemma digLenAux_pos (f n : ℕ) : 1 ≤ digLenAux f n := by
  induction f generalizing n with
  | zero => simp [digLenAux]
  | succ f ih =>
    simp only [digLenAux]
    split
    · exact le_refl 1
    · omega

lemma digLenAux_lt (f : ℕ) : ∀ n, n ≤ f → n < 10 ^ digLenAux f n := by
  induction f with
  | zero => intro n hn; interval_cases n; simp [digLenAux]
  | succ f ih =>
    intro n hn
    simp only [digLenAux]
    split
    · omega
    · rename_i h
      push_neg at h
      have h1 : n / 10 ≤ f := by omega
      have h2 := ih (n / 10) h1
      have h3 : n < 10 * (n / 10) + 10 := by omega
      calc n < 10 * (n / 10) + 10 := h3
        _ ≤ 10 * (10 ^ digLenAux f (n / 10)) := by omega
        _ = 10 ^ (digLenAux f (n / 10) + 1) := by ring

lemma digLenAux_le (f : ℕ) : ∀ n, n ≤ f → 1 ≤ n → 10 ^ (digLenAux f n - 1) ≤ n := by
  induction f with
  | zero => intro n hn; omega
  | succ f ih =>
    intro n hn h1
    simp only [digLenAux]
    split
    · simpa using h1
    · rename_i h
      push_neg at h
      have h1' : 1 ≤ n / 10 := by omega
      have h2 : n / 10 ≤ f := by omega
      have h3 := ih (n / 10) h2 h1'
      have h4 : 1 ≤ digLenAux f (n / 10) := digLenAux_pos f (n / 10)
      have h5 : digLenAux f (n / 10) + 1 - 1 = (digLenAux f (n / 10) - 1) + 1 := by omega
      rw [h5, pow_succ]
      have h6 : 10 * (n / 10) ≤ n := Nat.mul_div_le n 10
      calc 10 ^ (digLenAux f (n / 10) - 1) * 10 ≤ (n / 10) * 10 := by omega
        _ ≤ n := by omega

lemma digLen_pos (n : ℕ) : 1 ≤ digLen n := digLenAux_pos n n

lemma digLen_lt (n : ℕ) : n < 10 ^ digLen n := digLenAux_lt n n le_rfl

lemma digLen_le (n : ℕ) (h : 1 ≤ n) : 10 ^ (digLen n - 1) ≤ n := digLenAux_le n n le_rfl h

lemma digLen_le_of_lt {n p : ℕ} (hp : 1 ≤ p) (h : n < 10 ^ p) : digLen n ≤ p := by
  by_contra hc
  push_neg at hc
  rcases Nat.eq_zero_or_pos n with h0 | h0
  · subst h0; simp [digLen, digLenAux] at hc; omega
  · have h1 := digLen_le n h0
    have h2 : p ≤ digLen n - 1 := by omega
    have h3 : (10 : ℕ) ^ p ≤ 10 ^ (digLen n - 1) := Nat.pow_le_pow_right (by norm_num) h2
    omega

lemma digLen_mono {m n : ℕ} (h : m ≤ n) : digLen m ≤ digLen n := by
  rcases Nat.eq_zero_or_pos m with h0 | h0
  · subst h0
    simp [digLen, digLenAux]
    exact digLen_pos n
  · exact digLen_le_of_lt (digLen_pos n) (lt_of_le_of_lt h (digLen_lt n))

/-! ## Lemmas: values, canonical forms -/

lemma val_mk (c e : ℤ) : val ⟨c, e⟩ = (c : ℚ) * (10 : ℚ) ^ e := rfl

lemma stripAux_val (f : ℕ) : ∀ c e : ℤ, val (stripAux f c e) = (c : ℚ) * (10 : ℚ) ^ e := by
  induction f with
  | zero => intro c e; rfl
  | succ f ih =>
    intro c e
    simp only [stripAux]
    split
    · rename_i h
      have hdvd : (10 : ℤ) ∣ c := Int.dvd_of_emod_eq_zero h.2
      obtain ⟨k, hk⟩ := hdvd
      have hc10 : c / 10 = k := by omega
      rw [ih, hc10, hk]
      have : ((10 : ℤ) : ℚ) ≠ 0 := by norm_num
      rw [zpow_add_one₀ (by norm_num : (10 : ℚ) ≠ 0)]
      push_cast
      ring
    · rfl

lemma stripAux_spec (f : ℕ) : ∀ c e : ℤ,
    ∃ k : ℕ, (stripAux f c e).c * ((10 ^ k : ℕ) : ℤ) = c ∧ (stripAux f c e).e = e + k := by
  induction f with
  | zero => intro c e; exact ⟨0, by simp [stripAux], by simp [stripAux]⟩
  | succ f ih =>
    intro c e
    simp only [stripAux]
    split
    · rename_i h
      have hdvd : (10 : ℤ) ∣ c := Int.dvd_of_emod_eq_zero h.2
      obtain ⟨m, hm⟩ := hdvd
      have hc10 : c / 10 = m := by omega
      rw [hc10]
      obtain ⟨k, hk1, hk2⟩ := ih m (e + 1)
      refine ⟨k + 1, ?_, by omega⟩
      push_cast [pow_succ] at hk1 ⊢
      calc (stripAux f m (e + 1)).c * (10 ^ k * 10)
          = ((stripAux f m (e + 1)).c * 10 ^ k) * 10 := by ring
        _ = m * 10 := by rw [hk1]
        _ = c := by omega
    · exact ⟨0, by simp [stripAux], by simp [stripAux]⟩

lemma stripAux_canon (f : ℕ) : ∀ c e : ℤ, c ≠ 0 → digLen c.natAbs ≤ f →
    ¬ (10 : ℤ) ∣ (stripAux f c e).c := by
  induction f with
  | zero =>
    intro c e hc hf
    have := digLen_pos c.natAbs
    omega
  | succ f ih =>
    intro c e hc hf
    simp only [stripAux]
    split
    · rename_i h
      have hdvd : (10 : ℤ) ∣ c := Int.dvd_of_emod_eq_zero h.2
      obtain ⟨m, hm⟩ := hdvd
      have hc10 : c / 10 = m := by omega
      have hm0 : m ≠ 0 := by rintro rfl; simp at hm; exact hc hm
      rw [hc10]
      apply ih m (e + 1) hm0
      -- digit count drops by one when dividing an exact multiple of ten
      have hnat : c.natAbs = 10 * m.natAbs := by
        rw [hm, Int.natAbs_mul]; rfl
      have hd1 : 1 ≤ m.natAbs := Int.natAbs_pos.mpr hm0
      have hlow : 10 ^ (digLen m.natAbs) ≤ c.natAbs := by
        have := digLen_le m.natAbs hd1
        calc 10 ^ digLen m.natAbs = 10 * 10 ^ (digLen m.natAbs - 1) := by
              have h1 := digLen_pos m.natAbs
              rw [← pow_succ']
              congr 1
              omega
          _ ≤ 10 * m.natAbs := by omega
          _ = c.natAbs := hnat.symm
      have hup : c.natAbs < 10 ^ (digLen m.natAbs + 1) := by
        have := digLen_lt m.natAbs
        calc c.natAbs = 10 * m.natAbs := hnat
          _ < 10 * 10 ^ digLen m.natAbs := by omega
          _ = 10 ^ (digLen m.natAbs + 1) := by ring
      -- hence digLen c.natAbs = digLen m.natAbs + 1
      have : digLen m.natAbs + 1 ≤ digLen c.natAbs := by
        by_contra hcon
        push_neg at hcon
        have h3 : digLen c.natAbs ≤ digLen m.natAbs := by omega
        have h4 : (10:ℕ) ^ digLen c.natAbs ≤ 10 ^ digLen m.natAbs :=
          Nat.pow_le_pow_right (by norm_num) h3
        have h5 := digLen_lt c.natAbs
        omega
      omega
    · rename_i h
      push_neg at h
      intro hdvd
      have := Int.emod_emod_of_dvd c (dvd_refl (10 : ℤ))
      have h2 : c % 10 = 0 := Int.emod_eq_zero_of_dvd hdvd
      exact (h hc) h2

lemma norm_val (c e : ℤ) : val (norm c e) = (c : ℚ) * (10 : ℚ) ^ e := by
  unfold norm
  split
  · rename_i h; subst h; simp [val_mk]
  · exact stripAux_val _ c e

lemma norm_canon (c e : ℤ) : Canon (norm c e) := by
  unfold norm
  split
  · exact Or.inl ⟨rfl, rfl⟩
  · rename_i h
    exact Or.inr (stripAux_canon _ c e h le_rfl)

lemma canon_c_ne_zero {d : Dec} (h : Canon d) (hc : d.c ≠ 0) : ¬ (10 : ℤ) ∣ d.c := by
  rcases h with ⟨h1, _⟩ | h2
  · exact absurd h1 hc
  · exact h2

lemma canon_zero {d : Dec} (h : Canon d) (hc : d.c = 0) : d = ⟨0, 0⟩ := by
  rcases h with ⟨h1, h2⟩ | h2
  · cases d; simp_all
  · exact absurd (hc ▸ dvd_zero 10) h2

lemma val_eq_zero_iff {d : Dec} : val d = 0 ↔ d.c = 0 := by
  unfold val
  constructor
  · intro h
    rcases mul_eq_zero.mp h with h1 | h1
    · exact_mod_cast h1
    · exact absurd h1 (zpow_ne_zero _ (by norm_num))
  · intro h; rw [h]; simp

lemma canon_val_inj_aux {d1 d2 : Dec} (h1 : Canon d1) (h2 : Canon d2)
    (hv : val d1 = val d2) (hc1 : d1.c ≠ 0) (he : d1.e ≤ d2.e) : d1 = d2 := by
  have hc2 : d2.c ≠ 0 := by
    intro h0
    have : val d2 = 0 := val_eq_zero_iff.mpr h0
    exact hc1 (val_eq_zero_iff.mp (hv.trans this))
  unfold val at hv
  have hten : (10 : ℚ) ^ d1.e ≠ 0 := zpow_ne_zero _ (by norm_num)
  have h10 : (10 : ℚ) ≠ 0 := by norm_num
  have hk : (d1.c : ℚ) = (d2.c : ℚ) * (10 : ℚ) ^ (d2.e - d1.e) := by
    calc (d1.c : ℚ)
        = (d1.c : ℚ) * (10 : ℚ) ^ d1.e * (10 : ℚ) ^ (-d1.e) := by
          rw [mul_assoc, ← zpow_add₀ h10]; simp
      _ = (d2.c : ℚ) * (10 : ℚ) ^ d2.e * (10 : ℚ) ^ (-d1.e) := by rw [hv]
      _ = (d2.c : ℚ) * (10 : ℚ) ^ (d2.e - d1.e) := by
          rw [mul_assoc, ← zpow_add₀ h10, sub_eq_add_neg]
  have hke : d2.e - d1.e = ((d2.e - d1.e).toNat : ℤ) :=
    (Int.toNat_of_nonneg (by omega)).symm
  set k : ℕ := (d2.e - d1.e).toNat with hkdef
  rw [hke, zpow_natCast] at hk
  have hint : d1.c = d2.c * 10 ^ k := by exact_mod_cast hk
  rcases Nat.eq_zero_or_pos k with hk0 | hk0
  · rw [hk0] at hint
    simp at hint
    have he2 : d1.e = d2.e := by omega
    cases d1; cases d2
    simp only [Dec.mk.injEq]
    exact ⟨hint, he2⟩
  · exfalso
    apply canon_c_ne_zero h1 hc1
    refine ⟨d2.c * 10 ^ (k - 1), ?_⟩
    rw [hint]
    have hsplit : (10 : ℤ) ^ k = 10 * 10 ^ (k - 1) := by
      conv_lhs => rw [show k = (k - 1) + 1 by omega]
      rw [pow_succ]; ring
    rw [hsplit]; ring

lemma canon_val_inj {d1 d2 : Dec} (h1 : Canon d1) (h2 : Canon d2)
    (hv : val d1 = val d2) : d1 = d2 := by
  rcases eq_or_ne d1.c 0 with hc1 | hc1
  · have hz1 : d1 = ⟨0, 0⟩ := canon_zero h1 hc1
    have : val d2 = 0 := by
      rw [← hv, hz1]; simp [val_mk]
    have hz2 : d2 = ⟨0, 0⟩ := canon_zero h2 (val_eq_zero_iff.mp this)
    rw [hz1, hz2]
  · rcases le_total d1.e d2.e with he | he
    · exact canon_val_inj_aux h1 h2 hv hc1 he
    · rcases eq_or_ne d2.c 0 with hc2 | hc2
      · exfalso
        have : val d2 = 0 := val_eq_zero_iff.mpr hc2
        exact hc1 (val_eq_zero_iff.mp (hv.trans this))
      · exact (canon_val_inj_aux h2 h1 hv.symm hc2 he).symm

/-! ## Lemmas: exactness of decimal operations on small integers

Python `decimal` rounds the result of every arithmetic operation to the
context precision `p`; a result that is an integer of at most `p` digits is
therefore represented exactly.  These lemmas isolate the exact regime used
by the amended claims C1 and C3. -/

lemma intD_spec (z : ℤ) :
    ∃ k : ℕ, (intD z).c * ((10 ^ k : ℕ) : ℤ) = z ∧ (intD z).e = (k : ℤ) := by
  unfold intD norm
  split
  · rename_i h; subst h; exact ⟨0, by simp, by simp⟩
  · obtain ⟨k, h1, h2⟩ := stripAux_spec (digLen z.natAbs) z 0
    exact ⟨k, h1, by omega⟩

lemma intD_val (z : ℤ) : val (intD z) = (z : ℚ) := by
  unfold intD; rw [norm_val]; simp

lemma intD_canon (z : ℤ) : Canon (intD z) := norm_canon _ _

lemma roundDec_canon (p : ℕ) (c e : ℤ) : Canon (roundDec p c e) := by
  unfold roundDec
  split
  · exact norm_canon _ _
  · exact norm_canon _ _

lemma roundDec_exact {p : ℕ} {c : ℤ} (e : ℤ) (h : digLen c.natAbs ≤ p) :
    roundDec p c e = norm c e := by
  unfold roundDec; rw [if_pos h]

/-- Rounding an integer-valued coefficient/exponent pair whose integer value
has at most `p` digits gives that integer exactly. -/
lemma roundInt_norm {p : ℕ} {c : ℤ} {ek : ℕ} {z : ℤ}
    (hval : c * ((10 ^ ek : ℕ) : ℤ) = z) (hd : digLen z.natAbs ≤ p) :
    roundDec p c (ek : ℤ) = intD z := by
  rcases eq_or_ne z 0 with hz | hz
  · subst hz
    have h10 : ((10 ^ ek : ℕ) : ℤ) ≠ 0 := by positivity
    have hc : c = 0 := (mul_eq_zero.mp hval).resolve_right h10
    subst hc
    rw [roundDec_exact _ (by simpa using hd)]
    simp [norm, intD]
  · have hnat : c.natAbs * 10 ^ ek = z.natAbs := by
      have := congrArg Int.natAbs hval
      simpa [Int.natAbs_mul, Int.natAbs_pow] using this
    have hcle : c.natAbs ≤ z.natAbs := by
      have h1 : 1 ≤ (10 : ℕ) ^ ek := Nat.one_le_pow _ _ (by norm_num)
      calc c.natAbs = c.natAbs * 1 := (mul_one _).symm
        _ ≤ c.natAbs * 10 ^ ek := Nat.mul_le_mul_left _ h1
        _ = z.natAbs := hnat
    have hdle : digLen c.natAbs ≤ p := le_trans (digLen_mono hcle) hd
    rw [roundDec_exact _ hdle]
    apply canon_val_inj (norm_canon _ _) (intD_canon z)
    rw [norm_val, intD_val, zpow_natCast]
    push_cast at hval ⊢
    exact_mod_cast hval

/-- Exact addition: if both operands denote integers and the sum fits in
`p` digits, `addD` returns the exact integer sum. -/
lemma addD_intD {p : ℕ} {x y : Dec} {a b : ℤ} {ka kb : ℕ}
    (hxa : x.c * ((10 ^ ka : ℕ) : ℤ) = a) (hxe : x.e = (ka : ℤ))
    (hyb : y.c * ((10 ^ kb : ℕ) : ℤ) = b) (hye : y.e = (kb : ℤ))
    (hd : digLen (a + b).natAbs ≤ p) :
    addD p x y = intD (a + b) := by
  unfold addD
  push_cast at hxa hyb
  split
  · rename_i hle
    rw [hxe] at *
    rw [hye] at *
    have hkk : kb - ka + ka = kb := by omega
    have htn : (((kb : ℤ)) - (ka : ℤ)).toNat = kb - ka := by omega
    rw [htn]
    apply roundInt_norm ?_ hd
    push_cast
    calc (x.c + y.c * (10 : ℤ) ^ (kb - ka)) * (10 : ℤ) ^ ka
        = x.c * 10 ^ ka + y.c * (10 ^ (kb - ka) * 10 ^ ka) := by ring
      _ = a + y.c * 10 ^ kb := by rw [hxa, ← pow_add, hkk]
      _ = a + b := by rw [hyb]
  · rename_i hle
    rw [hxe] at *
    rw [hye] at *
    have hkk : ka - kb + kb = ka := by omega
    have htn : (((ka : ℤ)) - (kb : ℤ)).toNat = ka - kb := by omega
    rw [htn]
    apply roundInt_norm ?_ hd
    push_cast
    calc (x.c * (10 : ℤ) ^ (ka - kb) + y.c) * (10 : ℤ) ^ kb
        = x.c * (10 ^ (ka - kb) * 10 ^ kb) + y.c * 10 ^ kb := by ring
      _ = x.c * 10 ^ ka + b := by rw [hyb, ← pow_add, hkk]
      _ = a + b := by rw [hxa]

lemma subD_intD {p : ℕ} {x y : Dec} {a b : ℤ} {ka kb : ℕ}
    (hxa : x.c * ((10 ^ ka : ℕ) : ℤ) = a) (hxe : x.e = (ka : ℤ))
    (hyb : y.c * ((10 ^ kb : ℕ) : ℤ) = b) (hye : y.e = (kb : ℤ))
    (hd : digLen (a - b).natAbs ≤ p) :
    subD p x y = intD (a - b) := by
  unfold subD
  have hyb' : (Dec.mk (-y.c) y.e).c * ((10 ^ kb : ℕ) : ℤ) = -b := by
    simpa using congrArg Neg.neg hyb
  have h := addD_intD (p := p) hxa hxe hyb' hye (by rw [← sub_eq_add_neg]; exact hd)
  rw [h, sub_eq_add_neg]

lemma mulD_intD {p : ℕ} {x y : Dec} {a b : ℤ} {ka kb : ℕ}
    (hxa : x.c * ((10 ^ ka : ℕ) : ℤ) = a) (hxe : x.e = (ka : ℤ))
    (hyb : y.c * ((10 ^ kb : ℕ) : ℤ) = b) (hye : y.e = (kb : ℤ))
    (hd : digLen (a * b).natAbs ≤ p) :
    mulD p x y = intD (a * b) := by
  unfold mulD
  rw [hxe, hye]
  have hcast : (ka : ℤ) + (kb : ℤ) = ((ka + kb : ℕ) : ℤ) := by push_cast; ring
  rw [hcast]
  apply roundInt_norm ?_ hd
  push_cast at hxa hyb ⊢
  calc x.c * y.c * (10 : ℤ) ^ (ka + kb)
      = (x.c * 10 ^ ka) * (y.c * 10 ^ kb) := by rw [pow_add]; ring
    _ = a * b := by rw [hxa, hyb]

lemma cubeD_intD {p : ℕ} {x : Dec} {a : ℤ} {ka : ℕ}
    (hxa : x.c * ((10 ^ ka : ℕ) : ℤ) = a) (hxe : x.e = (ka : ℤ))
    (hd : digLen (a * a * a).natAbs ≤ p) :
    cubeD p x = intD (a * a * a) := by
  unfold cubeD
  rw [hxe]
  have hcast : 3 * (ka : ℤ) = ((3 * ka : ℕ) : ℤ) := by push_cast; ring
  rw [hcast]
  apply roundInt_norm ?_ hd
  push_cast at hxa ⊢
  calc x.c * x.c * x.c * (10 : ℤ) ^ (3 * ka)
      = (x.c * 10 ^ ka) * (x.c * 10 ^ ka) * (x.c * 10 ^ ka) := by ring
    _ = a * a * a := by rw [hxa]

/-- Exact divide-integer on nonnegative integer-valued operands. -/
lemma idivD_intD {x y : Dec} {a b : ℤ} {ka kb : ℕ}
    (hxa : x.c * ((10 ^ ka : ℕ) : ℤ) = a) (hxe : x.e = (ka : ℤ))
    (hyb : y.c * ((10 ^ kb : ℕ) : ℤ) = b) (hye : y.e = (kb : ℤ))
    (ha : 0 ≤ a) (hb : 0 < b) :
    idivD x y = intD (a / b) := by
  have h10a : (0 : ℤ) < ((10 ^ ka : ℕ) : ℤ) := by positivity
  have h10b : (0 : ℤ) < ((10 ^ kb : ℕ) : ℤ) := by positivity
  have hxc : 0 ≤ x.c := by nlinarith [hxa]
  have hyc : 0 < y.c := by nlinarith [hyb]
  have hyc0 : y.c ≠ 0 := by omega
  have hsgn : (x.c < 0) = (y.c < 0) := by
    simp [not_lt.mpr hxc, not_lt.mpr hyc.le]
  -- coefficient magnitudes
  have hA : x.c.natAbs * 10 ^ ka = a.natAbs := by
    have := congrArg Int.natAbs hxa
    simpa [Int.natAbs_mul, Int.natAbs_pow] using this
  have hB : y.c.natAbs * 10 ^ kb = b.natAbs := by
    have := congrArg Int.natAbs hyb
    simpa [Int.natAbs_mul, Int.natAbs_pow] using this
  have hq : a / b = ((a.natAbs / b.natAbs : ℕ) : ℤ) := by
    rw [Int.natCast_div, Int.natAbs_of_nonneg ha, Int.natAbs_of_nonneg hb.le]
  unfold idivD idivT
  rw [if_neg hyc0]
  simp only [hxe, hye, hsgn]
  rw [if_pos trivial]
  split
  · rename_i hsh
    have htn : ((ka : ℤ) - (kb : ℤ)).toNat = ka - kb := by omega
    have hkk : ka - kb + kb = ka := by omega
    have hTval : x.c.natAbs * 10 ^ (ka - kb) / y.c.natAbs = a.natAbs / b.natAbs := by
      rw [← hA, ← hB]
      rw [show x.c.natAbs * 10 ^ ka = x.c.natAbs * 10 ^ (ka - kb) * 10 ^ kb by
        rw [mul_assoc, ← pow_add, hkk]]
      rw [Nat.mul_div_mul_right _ _ (Nat.pos_pow_of_pos kb (by norm_num))]
    rw [htn, hTval, hq]
    rfl
  · rename_i hsh
    have htn : (-((ka : ℤ) - (kb : ℤ))).toNat = kb - ka := by omega
    have hkk : kb - ka + ka = kb := by omega
    have hTval : x.c.natAbs / (y.c.natAbs * 10 ^ (kb - ka)) = a.natAbs / b.natAbs := by
      rw [← hA, ← hB]
      rw [show y.c.natAbs * 10 ^ kb = y.c.natAbs * 10 ^ (kb - ka) * 10 ^ ka by
        rw [mul_assoc, ← pow_add, hkk]]
      rw [Nat.mul_div_mul_right _ _ (Nat.pos_pow_of_pos ka (by norm_num))]
    rw [htn, hTval, hq]
    rfl

/-! ## Lemmas: integer square root -/

lemma newton_ge {n x s : ℕ} (hx : 1 ≤ x) (hs : s * s ≤ n) :
    s ≤ (x + n / x) / 2 := by
  by_contra hcon
  push_neg at hcon
  have hs1 : 1 ≤ s := Nat.lt_of_le_of_lt (Nat.zero_le _) hcon
  have h1 : x + n / x + 1 ≤ 2 * s := by omega
  have h2 : n / x * x ≤ n := Nat.div_mul_le_self n x
  have h3 : n < x * (n / x) + x := by
    have hd := Nat.div_add_mod n x
    have hm := Nat.mod_lt n (show 0 < x by omega)
    nlinarith [hd, hm]
  zify at h1 h2 h3 hs
  nlinarith [sq_nonneg ((s : ℤ) - (x : ℤ)), h1, h2, h3, hs]

lemma isqrtAux_correct {n : ℕ} (hn : 1 ≤ n) :
    ∀ f x, 1 ≤ x → x ≤ f → n < (x + 1) * (x + 1) →
      isqrtAux f n x * isqrtAux f n x ≤ n ∧
        n < (isqrtAux f n x + 1) * (isqrtAux f n x + 1) := by
  intro f
  induction f with
  | zero => intro x hx hxf _; exact absurd (hx.trans hxf) (by norm_num)
  | succ f ih =>
    intro x hx hxf hinv
    rw [show isqrtAux (f+1) n x =
      if x ≤ (x + n / x) / 2 then x else isqrtAux f n ((x + n / x) / 2) from rfl]
    split
    · rename_i hstop
      have hq : x ≤ n / x := by omega
      have hxx : x * x ≤ n :=
        le_trans (Nat.mul_le_mul_right x hq) (Nat.div_mul_le_self n x)
      exact ⟨hxx, hinv⟩
    · rename_i hstop
      push_neg at hstop
      have hx' : 1 ≤ (x + n / x) / 2 := newton_ge hx (by simpa using hn)
      have hxf' : (x + n / x) / 2 ≤ f := by omega
      have hinv' : n < ((x + n / x) / 2 + 1) * ((x + n / x) / 2 + 1) := by
        by_contra hcon
        push_neg at hcon
        have := newton_ge hx hcon
        omega
      exact ih _ hx' hxf' hinv'

lemma isqrt_bounds (n : ℕ) :
    isqrt n * isqrt n ≤ n ∧ n < (isqrt n + 1) * (isqrt n + 1) := by
  unfold isqrt
  split
  · rename_i h
    interval_cases n
    · omega
    · omega
  · rename_i h
    push_neg at h
    exact isqrtAux_correct (by omega) n n (by omega) le_rfl (by nlinarith)

/-! ## Lemmas: the sequential engine -/

lemma stepRaise_M (i : ℕ) (s : SeqState) : (stepRaise i s).M = (seqStep i s).M := by
  unfold stepRaise; split <;> rfl

lemma stepRaise_L (i : ℕ) (s : SeqState) : (stepRaise i s).L = (seqStep i s).L := by
  unfold stepRaise; split <;> rfl

lemma stepRaise_X (i : ℕ) (s : SeqState) : (stepRaise i s).X = (seqStep i s).X := by
  unfold stepRaise; split <;> rfl

lemma stepRaise_K (i : ℕ) (s : SeqState) : (stepRaise i s).K = (seqStep i s).K := by
  unfold stepRaise; split <;> rfl

lemma stepRaise_S (i : ℕ) (s : SeqState) : (stepRaise i s).S = (seqStep i s).S := by
  unfold stepRaise; split <;> rfl

lemma stepRaise_pi (i : ℕ) (s : SeqState) : (stepRaise i s).pi = (seqStep i s).pi := by
  unfold stepRaise; split <;> rfl

lemma stepRaise_C (i : ℕ) (s : SeqState) : (stepRaise i s).C = s.C := by
  unfold stepRaise; split <;> rfl

lemma stepRaise_prec (i : ℕ) (s : SeqState) :
    (stepRaise i s).prec = if i % 10 = 0 then s.prec + 100 else s.prec := by
  unfold stepRaise; split <;> simp_all [seqStep]

lemma seqIter_C (p : ℕ) : ∀ n, (seqIter p n).C = (seqInit p).C := by
  intro n
  induction n with
  | zero => rfl
  | succ n ih => rw [seqIter, stepRaise_C]; exact ih

lemma seqIter_prec (p : ℕ) : ∀ n, (seqIter p n).prec = precAt p n := by
  intro n
  induction n with
  | zero => simp [seqIter, seqInit, precAt]
  | succ n ih =>
    rw [seqIter, stepRaise_prec, ih]
    unfold precAt
    split
    · rename_i h
      have : (n + 1) / 10 = n / 10 + 1 := by omega
      rw [this]; ring
    · rename_i h
      have : (n + 1) / 10 = n / 10 := by omega
      rw [this]

lemma seqIter_pi (p : ℕ) (n : ℕ) :
    (seqIter p (n+1)).pi =
      divD ((seqIter p n).prec) ((seqIter p n).C) ((seqIter p (n+1)).S) := by
  rw [show seqIter p (n+1) = stepRaise (n+1) (seqIter p n) from rfl,
    stepRaise_pi, stepRaise_S]
  rfl

/-- The snapshot list is exactly one entry per completed multiple of ten. -/
lemma seqSnaps_eq (p : ℕ) : ∀ n, seqSnaps p n =
    (List.range (n / 10)).map
      (fun k => ((seqIter p (10 * (k + 1))).pi, 10 * (k + 1), p + 100 * (k + 1))) := by
  intro n
  induction n with
  | zero => simp [seqSnaps]
  | succ n ih =>
    rw [seqSnaps, ih]
    split
    · rename_i h
      have hq : (n + 1) / 10 = n / 10 + 1 := by omega
      have h10 : 10 * (n / 10 + 1) = n + 1 := by omega
      rw [hq, List.range_succ, List.map_append]
      simp only [List.map_cons, List.map_nil]
      congr 2
      rw [h10]
      refine Prod.ext rfl (Prod.ext rfl ?_)
      show (seqIter p (n+1)).prec = p + 100 * (n / 10 + 1)
      rw [seqIter_prec]
      unfold precAt
      omega
    · rename_i h
      have hq : (n + 1) / 10 = n / 10 := by omega
      rw [hq, List.append_nil]

/-! ## Lemmas: canonical form of every engine value -/

lemma canon_zero_mk : Canon (⟨0, 0⟩ : Dec) := Or.inl ⟨rfl, rfl⟩

lemma addD_canon (p : ℕ) (x y : Dec) : Canon (addD p x y) := by
  unfold addD; split <;> exact roundDec_canon _ _ _

lemma subD_canon (p : ℕ) (x y : Dec) : Canon (subD p x y) := addD_canon _ _ _

lemma mulD_canon (p : ℕ) (x y : Dec) : Canon (mulD p x y) := roundDec_canon _ _ _

lemma cubeD_canon (p : ℕ) (x : Dec) : Canon (cubeD p x) := roundDec_canon _ _ _

lemma idivD_canon (x y : Dec) : Canon (idivD x y) := by
  unfold idivD; split
  · exact canon_zero_mk
  · exact norm_canon _ _

lemma divD_canon (p : ℕ) (x y : Dec) : Canon (divD p x y) := by
  unfold divD
  split
  · exact canon_zero_mk
  · split
    · exact canon_zero_mk
    · exact norm_canon _ _

lemma sqrtD_canon (p n : ℕ) : Canon (sqrtD p n) := by
  unfold sqrtD
  split
  · exact canon_zero_mk
  · split
    · exact norm_canon _ _
    · exact norm_canon _ _

/-- All decimal fields of the sequential state are canonical. -/
def StateCanon (s : SeqState) : Prop :=
  Canon s.C ∧ Canon s.M ∧ Canon s.L ∧ Canon s.X ∧ Canon s.K ∧ Canon s.S ∧ Canon s.pi

lemma seqInit_canon (p : ℕ) : StateCanon (seqInit p) :=
  ⟨mulD_canon _ _ _, intD_canon _, intD_canon _, intD_canon _, intD_canon _,
    intD_canon _, divD_canon _ _ _⟩

lemma seqStep_canon (i : ℕ) {s : SeqState} (h : StateCanon s) :
    StateCanon (seqStep i s) :=
  ⟨h.1, idivD_canon _ _, addD_canon _ _ _, mulD_canon _ _ _, addD_canon _ _ _,
    addD_canon _ _ _, divD_canon _ _ _⟩

lemma stepRaise_canon (i : ℕ) {s : SeqState} (h : StateCanon s) :
    StateCanon (stepRaise i s) := by
  unfold stepRaise
  split
  · exact seqStep_canon i h
  · exact seqStep_canon i h

lemma seqIter_canon (p : ℕ) : ∀ n, StateCanon (seqIter p n) := by
  intro n
  induction n with
  | zero => exact seqInit_canon p
  | succ n ih => exact stepRaise_canon _ ih

/-- All decimal fields of a chunk state are canonical. -/
def ChunkCanon (c : ChunkState) : Prop :=
  Canon c.sum ∧ Canon c.M ∧ Canon c.L ∧ Canon c.X ∧ Canon c.K

lemma chunkIterState_canon (p start_k : ℕ) : ∀ k, ChunkCanon (chunkIterState p start_k k) := by
  intro k
  induction k with
  | zero =>
    exact ⟨intD_canon _, intD_canon _, intD_canon _, intD_canon _, intD_canon _⟩
  | succ k ih =>
    exact ⟨addD_canon _ _ _, idivD_canon _ _, addD_canon _ _ _, mulD_canon _ _ _,
      addD_canon _ _ _⟩

lemma foldl_addD_canon (p : ℕ) (l : List Dec) (acc : Dec) (h : Canon acc) :
    Canon (l.foldl (fun a r => addD p a r) acc) := by
  induction l generalizing acc with
  | nil => exact h
  | cons hd tl ih => exact ih _ (addD_canon p acc hd)

lemma batchS_canon (cur threads p : ℕ) : Canon (batchS cur threads p) :=
  foldl_addD_canon p _ _ (intD_canon 0)

/-! ## Lemmas: the exact recurrence -/

lemma eK_closed (n : ℕ) : eK n = 6 + 12 * (n : ℤ) := by
  induction n with
  | zero => simp [eK]
  | succ n ih => rw [eK, ih]; push_cast; ring

lemma eL_closed (n : ℕ) : eL n = 13591409 + 545140134 * (n : ℤ) := by
  induction n with
  | zero => simp [eL]
  | succ n ih => rw [eL, ih]; push_cast; ring

lemma eK_ge (n : ℕ) : 6 ≤ eK n := by
  rw [eK_closed]; omega

lemma eK_cube_ge (n : ℕ) : 16 * eK n ≤ eK n * eK n * eK n := by
  have h := eK_ge n
  nlinarith

lemma eM_nonneg (n : ℕ) : 0 ≤ eM n := by
  induction n with
  | zero => simp [eM]
  | succ n ih =>
    rw [eM]
    apply Int.ediv_nonneg
    · exact mul_nonneg ih (by have := eK_cube_ge n; omega)
    · positivity

/-! ## Lemmas: the exact regime of one loop body

When the state variables `M, L, X, K` hold integers and every intermediate
integer result fits within the context precision, the decimal loop body
performs the exact Chudnovsky recurrence update. -/

lemma seqStep_exact_core (i : ℕ) {p : ℕ} {s : SeqState} {m l x k : ℤ}
    (hm : s.M = intD m) (hl : s.L = intD l) (hx : s.X = intD x) (hk : s.K = intD k)
    (hp : s.prec = p) (hi : 1 ≤ i) (hm0 : 0 ≤ m) (hkk : 16 * k ≤ k * k * k)
    (hd1 : digLen (k * k * k).natAbs ≤ p)
    (hd2 : digLen (16 * k).natAbs ≤ p)
    (hd3 : digLen (k * k * k - 16 * k).natAbs ≤ p)
    (hd4 : digLen (m * (k * k * k - 16 * k)).natAbs ≤ p)
    (hd5 : digLen (l + 545140134).natAbs ≤ p)
    (hd6 : digLen (x * (-262537412640768000)).natAbs ≤ p)
    (hd7 : digLen (k + 12).natAbs ≤ p) :
    (seqStep i s).M =
        intD (m * (k * k * k - 16 * k) / ((i : ℤ) * (i : ℤ) * (i : ℤ))) ∧
    (seqStep i s).L = intD (l + 545140134) ∧
    (seqStep i s).X = intD (x * (-262537412640768000)) ∧
    (seqStep i s).K = intD (k + 12) := by
  subst hp
  obtain ⟨km, hm1, hm2⟩ := intD_spec m
  obtain ⟨kl, hl1, hl2⟩ := intD_spec l
  obtain ⟨kx, hx1, hx2⟩ := intD_spec x
  obtain ⟨kk', hk1, hk2⟩ := intD_spec k
  rw [← hm] at hm1 hm2
  rw [← hl] at hl1 hl2
  rw [← hx] at hx1 hx2
  rw [← hk] at hk1 hk2
  -- the cube K ** 3
  have ht1 : cubeD s.prec s.K = intD (k * k * k) := cubeD_intD hk1 hk2 hd1
  -- 16 * K
  obtain ⟨k16, h16a, h16b⟩ := intD_spec 16
  have ht2 : mulD s.prec (intD 16) s.K = intD (16 * k) :=
    mulD_intD h16a h16b hk1 hk2 hd2
  -- K**3 - 16*K
  obtain ⟨ka3, h3a, h3b⟩ := intD_spec (k * k * k)
  obtain ⟨ka6, h6a, h6b⟩ := intD_spec (16 * k)
  have ht3 : subD s.prec (cubeD s.prec s.K) (mulD s.prec (intD 16) s.K) =
      intD (k * k * k - 16 * k) := by
    rw [ht1, ht2]
    exact subD_intD h3a h3b h6a h6b hd3
  -- M * (K**3 - 16*K)
  obtain ⟨kt3, ht3a, ht3b⟩ := intD_spec (k * k * k - 16 * k)
  have ht4 : mulD s.prec s.M (subD s.prec (cubeD s.prec s.K) (mulD s.prec (intD 16) s.K)) =
      intD (m * (k * k * k - 16 * k)) := by
    rw [ht3]
    exact mulD_intD hm1 hm2 ht3a ht3b hd4
  -- // i**3
  obtain ⟨kt4, ht4a, ht4b⟩ := intD_spec (m * (k * k * k - 16 * k))
  obtain ⟨ki3, hi3a, hi3b⟩ := intD_spec ((i : ℤ) * (i : ℤ) * (i : ℤ))
  have hMstep : (seqStep i s).M =
      intD (m * (k * k * k - 16 * k) / ((i : ℤ) * (i : ℤ) * (i : ℤ))) := by
    show idivD (mulD s.prec s.M (subD s.prec (cubeD s.prec s.K) (mulD s.prec (intD 16) s.K)))
        (intD ((i : ℤ) * (i : ℤ) * (i : ℤ))) = _
    rw [ht4]
    refine idivD_intD ht4a ht4b hi3a hi3b ?_ ?_
    · exact mul_nonneg hm0 (by omega)
    · have hi' : (0 : ℤ) < (i : ℤ) := by exact_mod_cast hi
      positivity
  refine ⟨hMstep, ?_, ?_, ?_⟩
  · show addD s.prec s.L (intD 545140134) = _
    obtain ⟨kc, hca, hcb⟩ := intD_spec 545140134
    exact addD_intD hl1 hl2 hca hcb hd5
  · show mulD s.prec s.X (intD (-262537412640768000)) = _
    obtain ⟨kc, hca, hcb⟩ := intD_spec (-262537412640768000)
    exact mulD_intD hx1 hx2 hca hcb hd6
  · show addD s.prec s.K (intD 12) = _
    obtain ⟨kc, hca, hcb⟩ := intD_spec 12
    exact addD_intD hk1 hk2 hca hcb hd7

/-- Under run-long fit conditions the four recurrence variables follow the
exact integer recurrence. -/
lemma seqIter_exact (p : ℕ) : ∀ n, (∀ i, i < n → fitsAt p i) →
    (seqIter p n).M = intD (eM n) ∧ (seqIter p n).L = intD (eL n) ∧
    (seqIter p n).X = intD (eX n) ∧ (seqIter p n).K = intD (eK n) := by
  intro n
  induction n with
  | zero => intro _; exact ⟨rfl, rfl, rfl, rfl⟩
  | succ n ih =>
    intro hfit
    obtain ⟨hM, hL, hX, hK⟩ := ih (fun i hi => hfit i (by omega))
    obtain ⟨f1, f2, f3, f4, f5, f6, f7⟩ := hfit n (by omega)
    have hprec : (seqIter p n).prec = precAt p n := seqIter_prec p n
    have step := seqStep_exact_core (n+1) hM hL hX hK hprec (by omega)
      (eM_nonneg n) (eK_cube_ge n) f1 f2 f3 f4 f5 f6 f7
    obtain ⟨sM, sL, sX, sK⟩ := step
    have hcast : ((n + 1 : ℕ) : ℤ) = (n : ℤ) + 1 := by push_cast; ring
    refine ⟨?_, ?_, ?_, ?_⟩
    · rw [show seqIter p (n+1) = stepRaise (n+1) (seqIter p n) from rfl,
        stepRaise_M, sM]
      show intD (eM n * (eK n * eK n * eK n - 16 * eK n) /
        (((n + 1 : ℕ) : ℤ) * ((n + 1 : ℕ) : ℤ) * ((n + 1 : ℕ) : ℤ))) = intD (eM (n+1))
      rw [hcast]
      rfl
    · rw [show seqIter p (n+1) = stepRaise (n+1) (seqIter p n) from rfl,
        stepRaise_L, sL]
      rfl
    · rw [show seqIter p (n+1) = stepRaise (n+1) (seqIter p n) from rfl,
        stepRaise_X, sX]
      rfl
    · rw [show seqIter p (n+1) = stepRaise (n+1) (seqIter p n) from rfl,
        stepRaise_K, sK]
      rfl

/-! ## Lemmas: the cancellation loop -/

lemma loopTokAux_run (tok : ℕ → Bool) (p : ℕ) :
    ∀ f n i, i ≤ n → (∀ m, i ≤ m → m < n → tok m = false) → tok n = true →
      n - i < f → loopTokAux tok f i (seqIter p i) = (n, seqIter p n) := by
  intro f
  induction f with
  | zero => intro n i h1 _ _ h4; omega
  | succ f ih =>
    intro n i h1 h2 h3 h4
    rw [loopTokAux]
    rcases eq_or_lt_of_le h1 with heq | hlt
    · subst heq
      rw [if_pos h3]
    · have hf : tok i = false := h2 i le_rfl hlt
      rw [if_neg (by simp [hf])]
      exact ih n (i+1) (by omega) (fun m hm1 hm2 => h2 m (by omega) hm2) h3 (by omega)

lemma orTok_setAt {a b : ℕ} (h : a ≤ b) : orTok (setAt a) (setAt b) = setAt a := by
  funext i
  unfold orTok setAt
  by_cases h1 : a ≤ i <;> by_cases h2 : b ≤ i <;> simp [h1, h2] <;> omega

/-! ## The claims -/

/-- C1, counterexample: the sequential engine does **not** advance the state
exactly by the stated integer recurrence: already at base precision 10 the
very first update of `X` is rounded by the decimal context (the exact
product `-262537412640768000` has 18 significant digits, more than the
context precision), so the stored `X` after iteration 1 differs from the
exact `X·(−262537412640768000)`. -/
theorem c1_counterexample : val ((seqIter 10 1).X) ≠ ((eX 1 : ℤ) : ℚ) := by
  have h1 : (seqIter 10 1).X = ⟨-2625374126, ((8 : ℕ) : ℤ)⟩ := by decide
  have h2 : eX 1 = -262537412640768000 := by decide
  rw [h1, h2]
  unfold val
  rw [zpow_natCast]
  norm_num

/-- C1 (amended): the sequential engine initializes the series state to
`M = 1`, `L = 13591409`, `X = 1`, `K = 6`, `S = L`, with
`C = 426880·√10005` computed (rounded) at the base precision and zeroth
approximation `pi = C/S`; in every iteration `i` the loop body performs the
stated updates with **every decimal operation rounded to the current
context precision**, which coincide with the exact integer recurrence
`M ← M·(K³ − 16K) div i³` (truncating integer division), `L ← L + 545140134`,
`X ← X·(−262537412640768000)`, `K ← K + 12` whenever all the intermediate
integer results fit within the current precision, while
`S ← S + (M·L)/X` and `pi ← C/S` always round their products, quotients and
sums at the current precision. -/
theorem c1_step_equations (p i : ℕ) (s : SeqState) (m l x k : ℤ)
    (hm : s.M = intD m) (hl : s.L = intD l) (hx : s.X = intD x) (hk : s.K = intD k)
    (hi : 1 ≤ i) (hm0 : 0 ≤ m) (hkk : 16 * k ≤ k * k * k)
    (hd1 : digLen (k * k * k).natAbs ≤ s.prec)
    (hd2 : digLen (16 * k).natAbs ≤ s.prec)
    (hd3 : digLen (k * k * k - 16 * k).natAbs ≤ s.prec)
    (hd4 : digLen (m * (k * k * k - 16 * k)).natAbs ≤ s.prec)
    (hd5 : digLen (l + 545140134).natAbs ≤ s.prec)
    (hd6 : digLen (x * (-262537412640768000)).natAbs ≤ s.prec)
    (hd7 : digLen (k + 12).natAbs ≤ s.prec) :
    ((seqInit p).M = intD 1 ∧ (seqInit p).L = intD 13591409 ∧
     (seqInit p).X = intD 1 ∧ (seqInit p).K = intD 6 ∧
     (seqInit p).S = (seqInit p).L ∧
     (seqInit p).C = mulD p (intD 426880) (sqrtD p 10005) ∧
     (seqInit p).pi = divD p ((seqInit p).C) ((seqInit p).S) ∧
     (seqInit p).prec = p) ∧
    ((seqStep i s).M =
        intD (m * (k * k * k - 16 * k) / ((i : ℤ) * (i : ℤ) * (i : ℤ))) ∧
     (seqStep i s).L = intD (l + 545140134) ∧
     (seqStep i s).X = intD (x * (-262537412640768000)) ∧
     (seqStep i s).K = intD (k + 12)) ∧
    ((seqStep i s).S = addD s.prec s.S
        (divD s.prec (mulD s.prec ((seqStep i s).M) ((seqStep i s).L)) ((seqStep i s).X)) ∧
     (seqStep i s).pi = divD s.prec s.C ((seqStep i s).S)) := by
  refine ⟨⟨rfl, rfl, rfl, rfl, rfl, rfl, rfl, rfl⟩, ?_, rfl, rfl⟩
  exact seqStep_exact_core i hm hl hx hk rfl hi hm0 hkk hd1 hd2 hd3 hd4 hd5 hd6 hd7

/-- Witness for C1's amended theorem at `p = 50`, `i = 1`, the initial
state. -/
theorem c1_step_equations_witness :
    ((0 : ℤ) ≤ 1 ∧ digLen ((6 : ℤ) * 6 * 6).natAbs ≤ (seqInit 50).prec) ∧
    ((seqStep 1 (seqInit 50)).M =
        intD (1 * ((6 : ℤ) * 6 * 6 - 16 * 6) / ((1 : ℤ) * 1 * 1)) ∧
     (seqStep 1 (seqInit 50)).L = intD (13591409 + 545140134) ∧
     (seqStep 1 (seqInit 50)).X = intD (1 * (-262537412640768000)) ∧
     (seqStep 1 (seqInit 50)).K = intD ((6 : ℤ) + 12)) :=
  ⟨⟨by decide, by decide⟩,
    (c1_step_equations 50 1 (seqInit 50) 1 13591409 1 6 rfl rfl rfl rfl
      (by decide) (by decide) (by decide) (by decide) (by decide) (by decide)
      (by decide) (by decide) (by decide) (by decide)).2.1⟩

/-- C2: the chunked parallel engine is **not** mathematically equivalent to
the sequential engine.  At base precision 50, one batch with one worker
covers terms 1–10, yet its aggregated `S` (which starts from `sum_total = 0`
and therefore omits the series' zeroth term `L = 13591409`) differs from the
sequential `S` after 10 terms; with two workers the batch additionally
restarts `M = 1` at offset 1 and overlaps chunk ranges, and its aggregated
`S` differs from the sequential `S` after the 20 terms the batch claims to
cover. -/
theorem c2_chunked_vs_sequential :
    val (batchS 0 1 50) ≠ val ((seqIter 50 10).S) ∧
    val (batchS 0 2 50) ≠ val ((seqIter 50 20).S) := by
  constructor
  · intro hval
    have h := canon_val_inj (batchS_canon 0 1 50)
      ((seqIter_canon 50 10).2.2.2.2.2.1) hval
    exact absurd h (by decide)
  · intro hval
    have h := canon_val_inj (batchS_canon 0 2 50)
      ((seqIter_canon 50 20).2.2.2.2.2.1) hval
    exact absurd h (by decide)

/-- C3, counterexample: the stored recurrence variables are **not** always
exact integers: at base precision 15 the multiplication
`X * -262537412640768000` of iteration 2 exceeds 15 significant digits and
is rounded by the context, so the stored `X` differs from the exact
recurrence value — the context governs multiplications too, not only
divisions. -/
theorem c3_counterexample : val ((seqIter 15 2).X) ≠ ((eX 2 : ℤ) : ℚ) := by
  have h1 : (seqIter 15 2).X = ⟨689258930361089, ((20 : ℕ) : ℤ)⟩ := by decide
  have h2 : eX 2 = 68925893036108889235415629824000000 := by decide
  rw [h1, h2]
  unfold val
  rw [zpow_natCast]
  norm_num

/-- C3 (amended): the stored `M, L, X, K` follow the exact integer
recurrence — and the precision raises at the snapshot boundaries leave them
untouched, the precision after `n` iterations being exactly
`precAt p n = p + 100·(n/10)` — as long as every intermediate integer
result of every executed iteration fits within the context precision in
force during that iteration; in general the decimal context rounds all
operations, not only divisions. -/
theorem c3_exact_integers (p n : ℕ) (h : ∀ i, i < n → fitsAt p i) :
    val ((seqIter p n).M) = ((eM n : ℤ) : ℚ) ∧
    val ((seqIter p n).L) = ((eL n : ℤ) : ℚ) ∧
    val ((seqIter p n).X) = ((eX n : ℤ) : ℚ) ∧
    val ((seqIter p n).K) = ((eK n : ℤ) : ℚ) ∧
    (seqIter p n).prec = precAt p n := by
  obtain ⟨hM, hL, hX, hK⟩ := seqIter_exact p n h
  exact ⟨by rw [hM, intD_val], by rw [hL, intD_val], by rw [hX, intD_val],
    by rw [hK, intD_val], seqIter_prec p n⟩

/-- Witness for C3's amended theorem: at base precision 100 the first three
iterations are all within the exact regime. -/
theorem c3_exact_integers_witness :
    (∀ i, i < 3 → fitsAt 100 i) ∧
    (val ((seqIter 100 3).M) = ((eM 3 : ℤ) : ℚ) ∧
     val ((seqIter 100 3).L) = ((eL 3 : ℤ) : ℚ) ∧
     val ((seqIter 100 3).X) = ((eX 3 : ℤ) : ℚ) ∧
     val ((seqIter 100 3).K) = ((eK 3 : ℤ) : ℚ) ∧
     (seqIter 100 3).prec = precAt 100 3) :=
  ⟨by decide, c3_exact_integers 100 3 (by decide)⟩

/-- C4: for a sequential run of at least `10·(k+1)` iterations, the
`(k+1)`-st reporter invocation carries `pi` as computed at iteration
`10·(k+1)`, `iteration_count = 10·(k+1)` and
`precision_digits = base + 100·(k+1)` (the engine's step amount is 100 and
its step interval 10), and the reporter is invoked exactly `n / 10` times
during `n` iterations — at no other iterations. -/
theorem c4_snapshot_schedule (p n k : ℕ) (hk : k < n / 10) :
    (seqSnaps p n).length = n / 10 ∧
    (seqSnaps p n)[k]? =
      some ((seqIter p (10 * (k + 1))).pi, 10 * (k + 1), p + 100 * (k + 1)) := by
  constructor
  · rw [seqSnaps_eq]; simp
  · rw [seqSnaps_eq, List.getElem?_map, List.getElem?_range hk]
    rfl

/-- Witness for C4 at `p = 30`, `n = 25`, `k = 1`. -/
theorem c4_snapshot_schedule_witness :
    (1 < 25 / 10) ∧
    (seqSnaps 30 25)[1]? = some ((seqIter 30 20).pi, 20, 230) :=
  ⟨by decide, (c4_snapshot_schedule 30 25 1 (by decide)).2⟩

/-- C5, counterexample: the chunk ranges of one batch are **not**
pairwise-disjoint ranges covering `worker_count × chunk_size` indices: with
2 workers at offset 0 the chunk start offsets are the consecutive 0 and 1,
term index 2 is computed by both chunks, and the batch covers only 11
distinct term indices instead of 20. -/
theorem c5_counterexample :
    batchStarts 0 2 = [0, 1] ∧
    (2 ∈ chunkTermIdxs 0 10 ∧ 2 ∈ chunkTermIdxs 1 10) ∧
    (batchTermIdxs 0 2).card = 11 := by
  refine ⟨by decide, ⟨by decide, by decide⟩, by decide⟩

/-- C5 (amended): in every batch the chunk start offsets are the
`worker_count` consecutive integers from the current offset (step 1, not
`chunk_size`), each chunk computes `chunk_size = 10` consecutive term
indices, adjacent chunks overlap, together they cover exactly the
`worker_count + 9` indices `cur+1, …, cur+worker_count+9`, and the global
offset nevertheless advances by `worker_count × chunk_size`. -/
theorem c5_batch_structure (cur t p : ℕ) (ht : 1 ≤ t) :
    batchArgs cur t p = (List.range t).map (fun j => (cur + j, 10, p)) ∧
    (∀ j, j + 1 < t →
      ¬ Disjoint (chunkTermIdxs (cur + j) 10) (chunkTermIdxs (cur + j + 1) 10)) ∧
    batchTermIdxs cur t = Finset.image (fun k => cur + 1 + k) (Finset.range (t + 9)) ∧
    batchAdvance cur t = cur + t * 10 := by
  refine ⟨rfl, ?_, ?_, rfl⟩
  · intro j hj
    rw [Finset.not_disjoint_iff]
    refine ⟨cur + j + 2, ?_, ?_⟩
    · unfold chunkTermIdxs
      rw [Finset.mem_image]
      exact ⟨1, Finset.mem_range.mpr (by norm_num), by ring⟩
    · unfold chunkTermIdxs
      rw [Finset.mem_image]
      exact ⟨0, Finset.mem_range.mpr (by norm_num), by ring⟩
  · ext a
    unfold batchTermIdxs chunkTermIdxs
    simp only [Finset.mem_biUnion, Finset.mem_image, Finset.mem_range]
    constructor
    · rintro ⟨j, hj, k, hk, rfl⟩
      exact ⟨j + k, by omega, by omega⟩
    · rintro ⟨k, hk, rfl⟩
      exact ⟨min k (t - 1), by omega, k - min k (t - 1), by omega, by omega⟩

/-- Witness for C5's amended theorem at `cur = 0`, `t = 2`, `p = 50`. -/
theorem c5_batch_structure_witness :
    (1 ≤ 2) ∧
    batchTermIdxs 0 2 = Finset.image (fun k => 0 + 1 + k) (Finset.range (2 + 9)) ∧
    batchAdvance 0 2 = 0 + 2 * 10 :=
  ⟨by decide, (c5_batch_structure 0 2 50 (by decide)).2.2.1,
    (c5_batch_structure 0 2 50 (by decide)).2.2.2⟩

/-- C6, counterexample: the values passed to a reporter invocation are
**not** mutually consistent: at base precision 30, the first snapshot
passes `precision_digits = 130` together with a `pi` that was computed as
`C / S` under the pre-raise precision 30, and that value differs (both as
a decimal datum and in value) from `C / S` evaluated at the advertised
precision 130. -/
theorem c6_counterexample :
    (seqSnaps 30 10)[0]? = some ((seqIter 30 10).pi, 10, 130) ∧
    val ((seqIter 30 10).pi) ≠
      val (divD 130 ((seqIter 30 10).C) ((seqIter 30 10).S)) := by
  constructor
  · decide
  · intro hval
    have h := canon_val_inj ((seqIter_canon 30 10).2.2.2.2.2.2)
      (divD_canon 130 _ _) hval
    exact absurd h (by decide)

/-- C6 (amended): each snapshot is internally consistent about the state —
the `pi` argument equals `C / S` for the `S` reached at the reported
iteration count — but the division was performed under the **pre-raise**
precision `base + 100·k`, one step amount below the reported
`precision_digits = base + 100·(k+1)`. -/
theorem c6_snapshot_consistency (p n k : ℕ) (hk : k < n / 10) :
    (seqSnaps p n)[k]? =
      some (divD (p + 100 * k) ((seqInit p).C) ((seqIter p (10 * (k + 1))).S),
            10 * (k + 1), p + 100 * (k + 1)) := by
  rw [seqSnaps_eq, List.getElem?_map, List.getElem?_range hk]
  have h1 : 10 * (k + 1) = (10 * k + 9) + 1 := by ring
  have hpi : (seqIter p (10 * (k + 1))).pi =
      divD (p + 100 * k) ((seqInit p).C) ((seqIter p (10 * (k + 1))).S) := by
    rw [h1, seqIter_pi p (10 * k + 9), seqIter_prec, seqIter_C]
    have : precAt p (10 * k + 9) = p + 100 * k := by unfold precAt; omega
    rw [this]
  simp only [Option.map_some']
  rw [hpi]

/-- Witness for C6's amended theorem at `p = 35`, `n = 20`, `k = 1`. -/
theorem c6_snapshot_consistency_witness :
    (1 < 20 / 10) ∧
    (seqSnaps 35 20)[1]? =
      some (divD 135 ((seqInit 35).C) ((seqIter 35 20).S), 20, 235) :=
  ⟨by decide, c6_snapshot_consistency 35 20 1 (by decide)⟩

/-- C7, counterexample: an exception from the arithmetic layer does **not**
propagate to the caller: `calculation_thread` catches every exception,
prints it, and returns normally, so the caller is left with the no-result
outcome `none` instead of the error. -/
theorem c7_counterexample :
    calculation_thread (Except.error "DivisionImpossible") = none := rfl

/-- C7 (amended): inside the engine an arithmetic failure is indeed fatal —
`chudnovsky_algorithm` installs no handler, so an error outcome aborts all
remaining iterations and surfaces unchanged, and nothing is retried — but
at the thread boundary `calculation_thread` catches the exception, prints
it and swallows it: the caller receives `none` (no result), while a normal
return is passed through. -/
theorem c7_error_handling :
    (∀ (e : String) (i n : ℕ), runFromE (Except.error e) i n = Except.error e) ∧
    (∀ e : String, calculation_thread (Except.error e) = none) ∧
    (∀ v : Dec × ℕ × ℕ, calculation_thread (Except.ok v) = some v) := by
  refine ⟨?_, fun e => rfl, fun v => rfl⟩
  intro e i n
  induction n generalizing i with
  | zero => rfl
  | succ n ih => rw [runFromE]; exact ih (i + 1)

/-- C8: cancellation is cooperative and idempotent: if the token is first
observed set at the check after `n` completed iterations, the loop returns
after exactly those `n` full iterations — the final state is `seqIter p n`,
every term's updates completed, nothing half-applied — and a token set
twice (at `a` and again at `b ≥ a`) drives the run exactly as a token set
once at `a`. -/
theorem c8_cancellation (tok : ℕ → Bool) (p f n : ℕ)
    (hbefore : ∀ m, m < n → tok m = false) (hset : tok n = true) (hf : n < f) :
    chudnovsky_run tok p f = (n, seqIter p n) ∧
    ∀ a b fuel, a ≤ b →
      chudnovsky_run (orTok (setAt a) (setAt b)) p fuel =
        chudnovsky_run (setAt a) p fuel := by
  constructor
  · exact loopTokAux_run tok p f n 0 (by omega)
      (fun m _ hm => hbefore m hm) hset (by omega)
  · intro a b fuel hab
    rw [orTok_setAt hab]

/-- Witness for C8 with a token set at check 2, base precision 30, fuel 7. -/
theorem c8_cancellation_witness :
    (setAt 2 2 = true) ∧ chudnovsky_run (setAt 2) 30 7 = (2, seqIter 30 2) :=
  ⟨by decide,
    (c8_cancellation (setAt 2) 30 7 2 (by decide) (by decide) (by decide)).1⟩

/-- C9: the sequential engine returns `(pi, precision, iteration_count)`
with the values after the last completed term `n`; the returned precision
always equals the last snapshot's precision, and the full returned triple
matches the most recent snapshot's values exactly when the loop stopped on
a step-interval boundary (`10 ∣ n`); otherwise the returned iteration count
is strictly ahead of the last snapshot's. -/
theorem c9_return_vs_snapshot (p n : ℕ) (hn : 10 ≤ n) :
    chudnovsky_algorithm p n = ((seqIter p n).pi, precAt p n, n) ∧
    (seqSnaps p n)[n / 10 - 1]? =
      some ((seqIter p (10 * (n / 10))).pi, 10 * (n / 10), p + 100 * (n / 10)) ∧
    ((seqSnaps p n)[n / 10 - 1]? =
        some ((chudnovsky_algorithm p n).1, (chudnovsky_algorithm p n).2.2,
          (chudnovsky_algorithm p n).2.1) ↔ 10 ∣ n) ∧
    (¬ 10 ∣ n → 10 * (n / 10) < n) := by
  have hret : chudnovsky_algorithm p n = ((seqIter p n).pi, precAt p n, n) := by
    unfold chudnovsky_algorithm
    rw [seqIter_prec]
  have hk : n / 10 - 1 < n / 10 := by omega
  have hsnap : (seqSnaps p n)[n / 10 - 1]? =
      some ((seqIter p (10 * (n / 10))).pi, 10 * (n / 10), p + 100 * (n / 10)) := by
    rw [seqSnaps_eq, List.getElem?_map, List.getElem?_range hk]
    have h1 : n / 10 - 1 + 1 = n / 10 := by omega
    simp only [Option.map_some']
    rw [h1]
  refine ⟨hret, hsnap, ?_, by omega⟩
  constructor
  · intro heq
    rw [hsnap, hret] at heq
    simp only [Option.some.injEq, Prod.mk.injEq] at heq
    have : 10 * (n / 10) = n := heq.2.1
    exact ⟨n / 10, by omega⟩
  · intro hdvd
    rw [hsnap, hret]
    have h10 : 10 * (n / 10) = n := Nat.mul_div_cancel' hdvd
    have hprec : p + 100 * (n / 10) = precAt p n := by unfold precAt; ring
    rw [h10, hprec]

/-- Witness for C9 at `p = 20`, `n = 23` (a non-boundary stop). -/
theorem c9_return_vs_snapshot_witness :
    (10 ≤ 23) ∧ chudnovsky_algorithm 20 23 = ((seqIter 20 23).pi, precAt 20 23, 23) :=
  ⟨by decide, (c9_return_vs_snapshot 20 23 (by decide)).1⟩

/-- C10: a chunk worker's locally reconstructed initial
`L = 13591409 + 545140134·start_k` and `K = 6 + 12·start_k` equal exactly
the values the exact sequential recurrence holds after `start_k` completed
terms. -/
theorem c10_chunk_restart_LK (start_k : ℕ) :
    val ((chunkInit start_k).L) = ((eL start_k : ℤ) : ℚ) ∧
    val ((chunkInit start_k).K) = ((eK start_k : ℤ) : ℚ) := by
  constructor
  · show val (intD (13591409 + 545140134 * (start_k : ℤ))) = _
    rw [intD_val, eL_closed]
  · show val (intD (6 + 12 * (start_k : ℤ))) = _
    rw [intD_val, eK_closed]

end PiNinfinity
